import Mathlib

/-!
Shallow embedding of the contact deduplication program (src/main.py):
e-mail and phone value objects with their regex parsing, the phonebook
index with its duplicate-detection policy, and conflict merging.
Python dictionaries are modelled as association lists whose key lookup
follows Python hash/eq semantics for the key types that actually occur
(Email, Phone, str); string hashing is abstracted as injective.
-/

namespace HwRegexp

/-- Characters stripped by Python str.strip and matched by the regex class
for whitespace (ASCII fragment). -/
def wsChar (c : Char) : Bool :=
  c == ' ' || c == '\t' || c == '\n' || c == '\r' || c == '\x0b' || c == '\x0c'

def trimL (l : List Char) : List Char := l.dropWhile wsChar

def trimR (l : List Char) : List Char := (l.reverse.dropWhile wsChar).reverse

/-- Python str.strip(). -/
def pyStrip (s : String) : String := String.mk (trimR (trimL s.toList))

/-! E-mail: the pattern from RE_EMAIL, matched with re.match (anchored at
the start of the stripped string).  Word boundaries at both ends are
modelled; the trailing boundary allows backtracking on the domain and
TLD parts.  The boolean result is the existence of a match, expressed by
letting every quantifier branch disjunctively. -/

def isWordChar (c : Char) : Bool := c.isAlpha || c.isDigit || c == '_'

def isLocalChar (c : Char) : Bool :=
  c.isAlpha || c.isDigit || c == '.' || c == '_' || c == '%' || c == '+' || c == '-'

def isDomainChar (c : Char) : Bool := c.isAlpha || c.isDigit || c == '.' || c == '-'

def isTldChar (c : Char) : Bool := c.isAlpha || c == '|'

/-- Word boundary between a last consumed character and the rest of the
input (end of string counts as a non-word position). -/
def boundaryOk (prev : Char) (cs : List Char) : Bool :=
  isWordChar prev != (match cs with | c :: _ => isWordChar c | [] => false)

/-- Continuation of the TLD once at least two characters were consumed:
stop at a word boundary or consume further TLD characters. -/
def tldCont (prev : Char) : List Char → Bool
  | [] => boundaryOk prev []
  | c :: rest => boundaryOk prev (c :: rest) || (isTldChar c && tldCont c rest)

/-- Second (mandatory) TLD character and onwards. -/
def tldMore : List Char → Bool
  | c :: rest => isTldChar c && tldCont c rest
  | [] => false

/-- First TLD character (the part after the final dot). -/
def tldStart : List Char → Bool
  | c :: rest => isTldChar c && tldMore rest
  | [] => false

/-- Domain continuation after at least one domain character: either the
final dot followed by the TLD, or one more domain character. -/
def domainFrom : List Char → Bool
  | [] => false
  | c :: rest => (c == '.' && tldStart rest) || (isDomainChar c && domainFrom rest)

def domainStart : List Char → Bool
  | [] => false
  | c :: rest => isDomainChar c && domainFrom rest

/-- Local-part continuation after at least one local character. -/
def localFrom : List Char → Bool
  | [] => false
  | c :: rest => (c == '@' && domainStart rest) || (isLocalChar c && localFrom rest)

/-- Anchored match of RE_EMAIL: a word boundary at position 0 (so the
first character must be a word character), then the local part. -/
def emailMatch : List Char → Bool
  | [] => false
  | c :: rest => isWordChar c && isLocalChar c && localFrom rest

structure Email where
  address : String
deriving DecidableEq, Repr

inductive EmailError where
  | invalidFormat
deriving DecidableEq, Repr

/-- Email.is_valid: strips and matches RE_EMAIL from the start. -/
def Email.is_valid (address : String) : Bool := emailMatch (pyStrip address).toList

/-- Email.__init__: strips, validates, raises on invalid input. -/
def Email.init (address : String) : Except EmailError Email :=
  if Email.is_valid (pyStrip address) then Except.ok ⟨pyStrip address⟩
  else Except.error EmailError.invalidFormat

/-- Email.parse: validates first and only then calls the constructor, so
a failed validation yields an absent value instead of an error.  The
Except layer records that the constructor call inside could in principle
raise. -/
def Email.parse (address : String) : Except EmailError (Option Email) :=
  if Email.is_valid address then (Email.init address).map some else Except.ok none

/-! Phone numbers: RE_PHONE searched (not anchored) over the input.
The pattern is an optional plus, one digit 7 or 8, ten groups of
separators followed by a digit (group 2), and an optional extension:
marker characters followed by one or more digits (group 5).  All the
character classes involved are disjoint from the digits, so the match
at a given position is deterministic; search takes the leftmost
position that matches. -/

/-- Class of the separator characters allowed between subscriber digits. -/
def isSepChar (c : Char) : Bool := wsChar c || c == '(' || c == ')' || c == '-'

/-- Class of the characters allowed before the extension digits. -/
def isExtMarkChar (c : Char) : Bool :=
  wsChar c || c == '(' || c == '.' || c == 'д' || c == 'о' || c == 'б' ||
    c == 'а' || c == 'в' || c == 'ч' || c == 'н' || c == 'ы' || c == 'й'

structure Phone where
  int_code : Nat
  number : String
  ext_code : Option String
deriving DecidableEq, Repr

/-- Phone.__init__: stores the country code and extension, stripping the
non-digit characters from the number. -/
def Phone.make (int_code : Nat) (number : String) (ext_code : Option String) : Phone :=
  ⟨int_code, String.mk (number.toList.filter Char.isDigit), ext_code⟩

/-- Ten repetitions of separators-then-digit; returns the raw matched
span (group 2) and the remaining input. -/
def matchTen : Nat → List Char → Option (List Char × List Char)
  | 0, cs => some ([], cs)
  | n + 1, cs =>
    match cs.dropWhile isSepChar with
    | c :: rest =>
      if c.isDigit then
        match matchTen n rest with
        | some (g, r) => some (cs.takeWhile isSepChar ++ c :: g, r)
        | none => none
      else none
    | [] => none

/-- Optional extension: marker characters then one or more digits
(group 5); absent when no digit follows the markers. -/
def matchExt (cs : List Char) : Option (List Char) :=
  match (cs.dropWhile isExtMarkChar).takeWhile Char.isDigit with
  | [] => none
  | d :: ds => some (d :: ds)

/-- Country digit (7 or 8), then the subscriber digits and extension. -/
def matchCountry (cs : List Char) : Option (List Char × Option (List Char)) :=
  match cs with
  | c :: rest =>
    if c = '7' ∨ c = '8' then
      match matchTen 10 rest with
      | some (g, r) => some (g, matchExt r)
      | none => none
    else none
  | [] => none

/-- Match of RE_PHONE at one position: optional leading plus, then the
country digit and the rest.  A consumed plus must be followed by the
country digit, so taking it when present loses no match. -/
def matchPhoneAt (cs : List Char) : Option (List Char × Option (List Char)) :=
  match cs with
  | c :: rest => if c = '+' then matchCountry rest else matchCountry (c :: rest)
  | [] => none

/-- Subscriber digits interleaved with separator runs, one run before
each digit. -/
def interleave (pairs : List (List Char × Char)) : List Char :=
  pairs.foldr (fun pr acc => pr.1 ++ pr.2 :: acc) []

/-- re.search: leftmost position whose suffix matches. -/
def searchPhone : List Char → Option (List Char × Option (List Char))
  | [] => none
  | c :: rest =>
    match matchPhoneAt (c :: rest) with
    | some r => some r
    | none => searchPhone rest

/-- Phone.parse_ru: search RE_PHONE, strip non-digits from group 2, and
build the value with the country code fixed to 7. -/
def Phone.parse_ru (number : String) : Option Phone :=
  match searchPhone number.toList with
  | some (g, ext) => some (Phone.make 7 (String.mk g) (ext.map String.mk))
  | none => none

/-- Phone.__eq__ against another Phone: the (int_code, number, ext_code)
triple. -/
def Phone.eqPhone (p q : Phone) : Bool :=
  p.int_code == q.int_code && p.number == q.number && p.ext_code == q.ext_code

/-- Phone.__eq__ against a raw string: parse it first; a failed parse
compares unequal. -/
def Phone.eqStr (p : Phone) (s : String) : Bool :=
  match Phone.parse_ru s with
  | some q => Phone.eqPhone p q
  | none => false

/-- The string Python hashes for a Phone:
f-string of int_code, number and ext_code (None prints as "None"). -/
def phoneHashStr (p : Phone) : String :=
  toString p.int_code ++ p.number ++ (match p.ext_code with | some e => e | none => "None")

/-! Contacts and the phonebook. -/

structure Contact where
  first_name : String
  last_name : String
  surname : Option String
  org : Option String
  position : Option String
  phone : Option Phone
  email : Option Email
deriving DecidableEq, Repr

/-- Python truthiness of an optional string field: absent or empty is
falsy. -/
def truthyO : Option String → Bool
  | none => false
  | some s => s != ""

/-- The name lookup key: last_name + first_name. -/
def nameKey (c : Contact) : String := c.last_name ++ c.first_name

/-- The key types that occur in the shared lookup dictionary. -/
inductive PKey where
  | em (e : Email)
  | ph (p : Phone)
  | str (s : String)
deriving DecidableEq, Repr

/-- Python dict key identification: hash equality plus __eq__.  Email
hashes as its address string and compares equal to a raw string with
the same address; Phone hashes as phoneHashStr and compares to a string
by parsing it; Email and Phone never identify. -/
def keyMatch : PKey → PKey → Bool
  | .em a, .em b => a.address == b.address
  | .em a, .str s => a.address == s
  | .str s, .em a => a.address == s
  | .ph p, .ph q => p == q
  | .ph p, .str s => phoneHashStr p == s && Phone.eqStr p s
  | .str s, .ph p => phoneHashStr p == s && Phone.eqStr p s
  | .str s, .str t => s == t
  | .em _, .ph _ => false
  | .ph _, .em _ => false

abbrev PDict := List (PKey × Contact)

/-- dict.get: the first (and, for reachable states, only) entry whose
stored key identifies with the probe. -/
def dictGet : PDict → PKey → Option Contact
  | [], _ => none
  | (k₀, v) :: rest, k => if keyMatch k k₀ then some v else dictGet rest k

/-- dict.get with a probe that may be None; None identifies with no
stored key. -/
def dictGetOpt (m : PDict) : Option PKey → Option Contact
  | some k => dictGet m k
  | none => none

/-- dict assignment: update the value of the identified entry (keeping
the stored key object) or append a fresh entry. -/
def dictSet : PDict → PKey → Contact → PDict
  | [], k, v => [(k, v)]
  | (k₀, v₀) :: rest, k, v =>
    if keyMatch k k₀ then (k₀, v) :: rest else (k₀, v₀) :: dictSet rest k v

/-- Python `a or b` over dict.get results, whose values (contacts) are
always truthy. -/
def pyOr : Option Contact → Option Contact → Option Contact
  | some d, _ => some d
  | none, o => o

structure PhonebookConflict where
  source : Contact
  dest : Contact
  resolved : Bool
deriving DecidableEq, Repr

/-- The fixed field order of PhonebookConflict.merge. -/
def mergeKeys : List String :=
  ["first_name", "last_name", "surname", "org", "position", "phone", "email"]

/-- One iteration of the merge loop: skip when the key is ignored, the
incoming value is falsy, or it equals the existing value; otherwise
overwrite that field of the existing record. -/
def mergeStep (ignore : List String) (d : Contact) (s : Contact) (key : String) : Contact :=
  if key ∈ ignore then s
  else if key = "first_name" then
    (if d.first_name = "" ∨ d.first_name = s.first_name then s
     else { s with first_name := d.first_name })
  else if key = "last_name" then
    (if d.last_name = "" ∨ d.last_name = s.last_name then s
     else { s with last_name := d.last_name })
  else if key = "surname" then
    (if truthyO d.surname = false ∨ d.surname = s.surname then s
     else { s with surname := d.surname })
  else if key = "org" then
    (if truthyO d.org = false ∨ d.org = s.org then s else { s with org := d.org })
  else if key = "position" then
    (if truthyO d.position = false ∨ d.position = s.position then s
     else { s with position := d.position })
  else if key = "phone" then
    (if d.phone = none ∨ d.phone = s.phone then s else { s with phone := d.phone })
  else if key = "email" then
    (if d.email = none ∨ d.email = s.email then s else { s with email := d.email })
  else s

/-- PhonebookConflict.merge: fold the loop over the fixed key order,
then set resolved.  The Python method mutates source in place and
returns None; here the updated conflict is the result. -/
def PhonebookConflict.merge (cf : PhonebookConflict) (ignore : List String) : PhonebookConflict :=
  { cf with source := mergeKeys.foldl (mergeStep ignore cf.dest) cf.source, resolved := true }

structure Phonebook where
  list : List Contact
  hash : PDict
  conflicts : List PhonebookConflict
deriving DecidableEq, Repr

def Phonebook.empty : Phonebook := ⟨[], [], []⟩

/-- The value Phonebook.add returns: False on conflict, and the class
object Contact (not a bool) on acceptance. -/
inductive AddResult where
  | bool (b : Bool)
  | contactClass
deriving DecidableEq, Repr

/-- Conditional registration used for the optional email/phone keys. -/
def optIns (m : PDict) (k : Option PKey) (v : Contact) : PDict :=
  match k with
  | some k' => dictSet m k' v
  | none => m

/-- The acceptance tail of Phonebook.add: append to the list, register
the email key (if present), the phone key (if present) and the name
key, and return the class object. -/
def acceptInto (pb : Phonebook) (c : Contact) : Phonebook × AddResult :=
  ({ list := pb.list ++ [c],
     hash := dictSet (optIns (optIns pb.hash (c.email.map PKey.em) c) (c.phone.map PKey.ph) c)
       (PKey.str (nameKey c)) c,
     conflicts := pb.conflicts }, AddResult.contactClass)

/-- Phonebook.add: email lookup or-else phone lookup first; then the
name key with the middle-name rule; otherwise accept. -/
def Phonebook.add (pb : Phonebook) (c : Contact) : Phonebook × AddResult :=
  match pyOr (dictGetOpt pb.hash (c.email.map PKey.em)) (dictGetOpt pb.hash (c.phone.map PKey.ph)) with
  | some dup =>
    ({ pb with conflicts := pb.conflicts ++ [⟨dup, c, false⟩] }, AddResult.bool false)
  | none =>
    match dictGet pb.hash (PKey.str (nameKey c)) with
    | some dup =>
      if truthyO dup.surname = false ∨ truthyO c.surname = false ∨ dup.surname = c.surname then
        ({ pb with conflicts := pb.conflicts ++ [⟨dup, c, false⟩] }, AddResult.bool false)
      else acceptInto pb c
    | none => acceptInto pb c

/-- A batch of insertions starting from the empty phonebook. -/
def runAdds (cs : List Contact) : Phonebook :=
  cs.foldl (fun pb c => (pb.add c).1) Phonebook.empty

/-- The most recently accepted contact with the given name key. -/
def lastWithName (s : String) (l : List Contact) : Option Contact :=
  (l.filter (fun c => nameKey c == s)).getLast?

/-- The invariant behind the name-key chaining behaviour: whenever some
accepted contact has a given name key, looking that string up in the
shared dictionary yields the most recently accepted contact with that
name. -/
def nameInvariant (pb : Phonebook) : Prop :=
  ∀ s : String, (∃ d ∈ pb.list, nameKey d = s) →
    dictGet pb.hash (PKey.str s) = lastWithName s pb.list

/-! Example contacts used to instantiate the theorems. -/

def ivanEmail : Contact := ⟨"Ivan", "Ivanov", none, none, none, none, some ⟨"a@x.com"⟩⟩

def petrEmail : Contact := ⟨"Petr", "Petrov", none, none, none, none, some ⟨"a@x.com"⟩⟩

def ivanPetrovich : Contact := ⟨"Ivan", "Ivanov", some "Petrovich", none, none, none, none⟩

def ivanSergeevich : Contact := ⟨"Ivan", "Ivanov", some "Sergeevich", none, none, none, none⟩

def comContact : Contact := ⟨"com", "a@x.", none, none, none, none, none⟩

/-! Lemmas about Python string stripping and the e-mail validator. -/

lemma dropWhile_self_idem (p : Char → Bool) (l : List Char) :
    List.dropWhile p (List.dropWhile p l) = List.dropWhile p l := by
  induction l with
  | nil => rfl
  | cons c t ih =>
    by_cases h : p c
    · simp [List.dropWhile_cons, h, ih]
    · simp [List.dropWhile_cons, h]

lemma trimR_idem (l : List Char) : trimR (trimR l) = trimR l := by
  unfold trimR
  rw [List.reverse_reverse, dropWhile_self_idem]

lemma dropWhile_append' (p : Char → Bool) (l₁ l₂ : List Char) :
    List.dropWhile p (l₁ ++ l₂) =
      if (List.dropWhile p l₁).isEmpty then List.dropWhile p l₂
      else List.dropWhile p l₁ ++ l₂ := by
  induction l₁ with
  | nil => simp
  | cons c t ih =>
    by_cases h : p c
    · simpa [List.dropWhile_cons, h] using ih
    · simp [List.dropWhile_cons, h]

lemma trimL_fixed_head (x : List Char) (c : Char) (t : List Char)
    (hx : trimL x = x) (hct : x = c :: t) : wsChar c = false := by
  subst hct
  unfold trimL at hx
  by_cases h : wsChar c
  · exfalso
    rw [List.dropWhile_cons, if_pos h] at hx
    have hlen := congrArg List.length hx
    have hle : ∀ (l : List Char), (List.dropWhile wsChar l).length ≤ l.length := by
      intro l
      induction l with
      | nil => simp
      | cons a u ih =>
        by_cases ha : wsChar a
        · rw [List.dropWhile_cons, if_pos ha]
          exact Nat.le_trans ih (Nat.le_succ _)
        · rw [List.dropWhile_cons, if_neg ha]
    simp at hlen
    have := hle t
    omega
  · exact eq_false_of_ne_true h

lemma trimL_trimR_fixed (x : List Char) (hx : trimL x = x) :
    trimL (trimR x) = trimR x := by
  cases hcx : x with
  | nil => subst hcx; rfl
  | cons c t =>
    have hc : wsChar c = false := trimL_fixed_head x c t hx hcx
    subst hcx
    unfold trimR
    rw [List.reverse_cons, dropWhile_append']
    by_cases he : (List.dropWhile wsChar t.reverse).isEmpty
    · rw [if_pos he]
      simp only [List.dropWhile_cons, hc]
      simp [trimL, List.dropWhile_cons, hc, List.dropWhile_nil]
    · rw [if_neg he]
      rw [List.reverse_append]
      simp only [List.reverse_cons, List.reverse_nil, List.nil_append]
      simp [trimL, List.dropWhile_cons, hc]

lemma pyStrip_idem (s : String) : pyStrip (pyStrip s) = pyStrip s := by
  show String.mk (trimR (trimL (String.toList (String.mk (trimR (trimL s.toList)))))) =
    String.mk (trimR (trimL s.toList))
  have h1 : String.toList (String.mk (trimR (trimL s.toList))) = trimR (trimL s.toList) := rfl
  rw [h1, trimL_trimR_fixed (trimL s.toList) (dropWhile_self_idem wsChar s.toList), trimR_idem]

lemma is_valid_pyStrip (s : String) : Email.is_valid (pyStrip s) = Email.is_valid s := by
  unfold Email.is_valid
  rw [pyStrip_idem]

/-! Lemmas about the dictionary model. -/

lemma keyMatch_refl (k : PKey) : keyMatch k k = true := by
  cases k <;> simp [keyMatch]

lemma dictGet_dictSet_self (m : PDict) (k : PKey) (v : Contact) :
    dictGet (dictSet m k v) k = some v := by
  induction m with
  | nil => simp [dictSet, dictGet, keyMatch_refl]
  | cons e rest ih =>
    obtain ⟨k₀, v₀⟩ := e
    by_cases h : keyMatch k k₀
    · simp [dictSet, dictGet, h]
    · simp [dictSet, dictGet, h, ih]

lemma dictGet_dictSet_or (m : PDict) (k k' : PKey) (v : Contact) :
    dictGet (dictSet m k v) k' = some v ∨ dictGet (dictSet m k v) k' = dictGet m k' := by
  induction m with
  | nil =>
    by_cases h : keyMatch k' k
    · exact Or.inl (by simp [dictSet, dictGet, h])
    · exact Or.inr (by simp [dictSet, dictGet, h])
  | cons e rest ih =>
    obtain ⟨k₀, v₀⟩ := e
    by_cases h : keyMatch k k₀
    · by_cases h' : keyMatch k' k₀
      · exact Or.inl (by simp [dictSet, dictGet, h, h'])
      · exact Or.inr (by simp [dictSet, dictGet, h, h'])
    · by_cases h' : keyMatch k' k₀
      · exact Or.inr (by simp [dictSet, dictGet, h, h'])
      · simpa [dictSet, dictGet, h, h'] using ih

lemma dictSet_of_get_none (m : PDict) (k : PKey) (v : Contact)
    (h : dictGet m k = none) : dictSet m k v = m ++ [(k, v)] := by
  induction m with
  | nil => rfl
  | cons e rest ih =>
    obtain ⟨k₀, v₀⟩ := e
    by_cases hm : keyMatch k k₀
    · simp [dictGet, hm] at h
    · simp only [dictGet, hm] at h
      simp [dictSet, hm, ih (by simpa using h)]

lemma dictGet_append_of_some (m m' : PDict) (k : PKey) (w : Contact)
    (h : dictGet m k = some w) : dictGet (m ++ m') k = some w := by
  induction m with
  | nil => simp [dictGet] at h
  | cons e rest ih =>
    obtain ⟨k₀, v₀⟩ := e
    by_cases hm : keyMatch k k₀
    · simp_all [dictGet]
    · rw [List.cons_append]
      simp only [dictGet, hm] at h ⊢
      exact ih h

lemma dictGet_dictSet_of_sep (m : PDict) (k k' : PKey) (v : Contact)
    (h : ∀ k₀, keyMatch k k₀ = true → keyMatch k' k₀ = true → False) :
    dictGet (dictSet m k v) k' = dictGet m k' := by
  induction m with
  | nil =>
    have : ¬ keyMatch k' k = true := fun hk => h k (keyMatch_refl k) hk
    simp [dictSet, dictGet, this]
  | cons e rest ih =>
    obtain ⟨k₀, v₀⟩ := e
    by_cases hm : keyMatch k k₀
    · have : ¬ keyMatch k' k₀ = true := fun hk => h k₀ hm hk
      simp [dictSet, dictGet, hm, this]
    · by_cases h' : keyMatch k' k₀
      · simp [dictSet, dictGet, hm, h']
      · simp [dictSet, dictGet, hm, h', ih]

lemma keyMatch_str_forces (s t : String) (k : PKey)
    (h₁ : keyMatch (PKey.str s) k = true) (h₂ : keyMatch (PKey.str t) k = true) : s = t := by
  cases k with
  | em a =>
    simp [keyMatch] at h₁ h₂
    rw [← h₁, ← h₂]
  | ph p =>
    simp [keyMatch] at h₁ h₂
    rw [← h₁.1, ← h₂.1]
  | str u =>
    simp [keyMatch] at h₁ h₂
    rw [h₁, h₂]

lemma optIns_some (m : PDict) (k : PKey) (v : Contact) : optIns m (some k) v = dictSet m k v :=
  rfl

lemma optIns_none (m : PDict) (v : Contact) : optIns m none v = m := rfl

lemma pyOr_eq_none (a b : Option Contact) (h : pyOr a b = none) : a = none ∧ b = none := by
  cases a with
  | some d => simp [pyOr] at h
  | none => exact ⟨rfl, by simpa [pyOr] using h⟩

/-- C1: the claim says Phonebook.add always returns a bool, true on
acceptance.  The code instead executes `return Contact` on acceptance,
returning the class object, which is not a boolean at all.  This
theorem evaluates add at a non-conflicting insertion and records that
the result is the class object, distinct from every boolean result. -/
theorem claim_C1_add_accept_returns_class :
    (Phonebook.empty.add ivanEmail).2 = AddResult.contactClass ∧
    decide (AddResult.contactClass = AddResult.bool true) = false ∧
    decide (AddResult.contactClass = AddResult.bool false) = false ∧
    ((Phonebook.empty.add ivanEmail).1.add petrEmail).2 = AddResult.bool false := by
  refine ⟨by decide, by decide, by decide, by decide⟩

/-- C2: when the incoming contact's email is present and already maps to
an existing record, or otherwise its phone is present and already maps
to one, add appends exactly one conflict with source the existing
record and dest the incoming one, leaves the accepted list unchanged,
and returns False; the email lookup is consulted first and its hit
determines the source. -/
theorem claim_C2_contact_channel_conflict (pb : Phonebook) (c d : Contact)
    (h : dictGetOpt pb.hash (c.email.map PKey.em) = some d ∨
      (dictGetOpt pb.hash (c.email.map PKey.em) = none ∧
        dictGetOpt pb.hash (c.phone.map PKey.ph) = some d)) :
    (pb.add c).1.conflicts = pb.conflicts ++ [⟨d, c, false⟩] ∧
    (pb.add c).1.list = pb.list ∧
    (pb.add c).2 = AddResult.bool false := by
  have hp : pyOr (dictGetOpt pb.hash (c.email.map PKey.em))
      (dictGetOpt pb.hash (c.phone.map PKey.ph)) = some d := by
    rcases h with h | ⟨h1, h2⟩
    · rw [h]
      rfl
    · rw [h1, h2]
      rfl
  have hred : pb.add c
      = ({ pb with conflicts := pb.conflicts ++ [⟨d, c, false⟩] }, AddResult.bool false) := by
    unfold Phonebook.add
    rw [hp]
  rw [hred]
  exact ⟨rfl, rfl, rfl⟩

theorem claim_C2_witness :
    ((Phonebook.empty.add ivanEmail).1.add petrEmail).1.conflicts
      = (Phonebook.empty.add ivanEmail).1.conflicts ++ [⟨ivanEmail, petrEmail, false⟩] ∧
    ((Phonebook.empty.add ivanEmail).1.add petrEmail).1.list
      = (Phonebook.empty.add ivanEmail).1.list ∧
    ((Phonebook.empty.add ivanEmail).1.add petrEmail).2 = AddResult.bool false :=
  claim_C2_contact_channel_conflict _ _ _ (Or.inl (by decide))

/-- C3: with no email or phone hit, a hit on the lastName+firstName key
is a conflict (same shape as the channel conflict, returning False)
exactly when either middle name is absent-or-empty or the two middle
names are equal; when both are non-empty and differ, the contact is
accepted as a new record. -/
theorem claim_C3_name_channel_rule (pb : Phonebook) (c dup : Contact)
    (hE : dictGetOpt pb.hash (c.email.map PKey.em) = none)
    (hP : dictGetOpt pb.hash (c.phone.map PKey.ph) = none)
    (hN : dictGet pb.hash (PKey.str (nameKey c)) = some dup) :
    ((truthyO dup.surname = false ∨ truthyO c.surname = false ∨ dup.surname = c.surname) →
      (pb.add c).2 = AddResult.bool false ∧
      (pb.add c).1.conflicts = pb.conflicts ++ [⟨dup, c, false⟩] ∧
      (pb.add c).1.list = pb.list) ∧
    ((truthyO dup.surname = true ∧ truthyO c.surname = true ∧ dup.surname ≠ c.surname) →
      (pb.add c).2 = AddResult.contactClass ∧
      (pb.add c).1.list = pb.list ++ [c] ∧
      (pb.add c).1.conflicts = pb.conflicts) := by
  have hp : pyOr (dictGetOpt pb.hash (c.email.map PKey.em))
      (dictGetOpt pb.hash (c.phone.map PKey.ph)) = none := by
    rw [hE, hP]
    rfl
  have hred : pb.add c
      = (if truthyO dup.surname = false ∨ truthyO c.surname = false ∨ dup.surname = c.surname
          then ({ pb with conflicts := pb.conflicts ++ [⟨dup, c, false⟩] }, AddResult.bool false)
          else acceptInto pb c) := by
    unfold Phonebook.add
    rw [hp, hN]
  rw [hred]
  constructor
  · intro hcond
    rw [if_pos hcond]
    exact ⟨rfl, rfl, rfl⟩
  · rintro ⟨h1, h2, h3⟩
    rw [if_neg (by simp [h1, h2, h3])]
    exact ⟨rfl, rfl, rfl⟩

theorem claim_C3_witness :
    (((Phonebook.empty.add ivanPetrovich).1.add ivanSergeevich).2 = AddResult.contactClass ∧
      ((Phonebook.empty.add ivanPetrovich).1.add ivanSergeevich).1.list
        = (Phonebook.empty.add ivanPetrovich).1.list ++ [ivanSergeevich] ∧
      ((Phonebook.empty.add ivanPetrovich).1.add ivanSergeevich).1.conflicts
        = (Phonebook.empty.add ivanPetrovich).1.conflicts) ∧
    (((Phonebook.empty.add ivanEmail).1.add ⟨"Ivan", "Ivanov", none, none, none, none, none⟩).2
      = AddResult.bool false) :=
  ⟨(claim_C3_name_channel_rule (Phonebook.empty.add ivanPetrovich).1 ivanSergeevich
      ivanPetrovich (by decide) (by decide) (by decide)).2
      ⟨by decide, by decide, by decide⟩,
    ((claim_C3_name_channel_rule (Phonebook.empty.add ivanEmail).1
        ⟨"Ivan", "Ivanov", none, none, none, none, none⟩ ivanEmail
        (by decide) (by decide) (by decide)).1 (Or.inr (Or.inr (by decide)))).1⟩

/-! Evaluation of the merge loop, one field at a time. -/

lemma mergeStep_eval_first (ig : List String) (d s : Contact) :
    mergeStep ig d s "first_name" =
      { s with first_name :=
          if "first_name" ∈ ig ∨ d.first_name = "" ∨ d.first_name = s.first_name
          then s.first_name else d.first_name } := by
  unfold mergeStep
  by_cases hin : "first_name" ∈ ig
  · rw [if_pos hin, if_pos (Or.inl hin)]
  · rw [if_neg hin, if_pos rfl]
    by_cases hc : d.first_name = "" ∨ d.first_name = s.first_name
    · rw [if_pos hc, if_pos (Or.inr hc)]
    · rw [if_neg hc, if_neg (by tauto)]

lemma mergeStep_eval_last (ig : List String) (d s : Contact) :
    mergeStep ig d s "last_name" =
      { s with last_name :=
          if "last_name" ∈ ig ∨ d.last_name = "" ∨ d.last_name = s.last_name
          then s.last_name else d.last_name } := by
  unfold mergeStep
  by_cases hin : "last_name" ∈ ig
  · rw [if_pos hin, if_pos (Or.inl hin)]
  · rw [if_neg hin, if_neg (by decide), if_pos rfl]
    by_cases hc : d.last_name = "" ∨ d.last_name = s.last_name
    · rw [if_pos hc, if_pos (Or.inr hc)]
    · rw [if_neg hc, if_neg (by tauto)]

lemma mergeStep_eval_surname (ig : List String) (d s : Contact) :
    mergeStep ig d s "surname" =
      { s with surname :=
          if "surname" ∈ ig ∨ truthyO d.surname = false ∨ d.surname = s.surname
          then s.surname else d.surname } := by
  unfold mergeStep
  by_cases hin : "surname" ∈ ig
  · rw [if_pos hin, if_pos (Or.inl hin)]
  · rw [if_neg hin, if_neg (by decide), if_neg (by decide), if_pos rfl]
    by_cases hc : truthyO d.surname = false ∨ d.surname = s.surname
    · rw [if_pos hc, if_pos (Or.inr hc)]
    · rw [if_neg hc, if_neg (by tauto)]

lemma mergeStep_eval_org (ig : List String) (d s : Contact) :
    mergeStep ig d s "org" =
      { s with org :=
          if "org" ∈ ig ∨ truthyO d.org = false ∨ d.org = s.org
          then s.org else d.org } := by
  unfold mergeStep
  by_cases hin : "org" ∈ ig
  · rw [if_pos hin, if_pos (Or.inl hin)]
  · rw [if_neg hin, if_neg (by decide), if_neg (by decide), if_neg (by decide), if_pos rfl]
    by_cases hc : truthyO d.org = false ∨ d.org = s.org
    · rw [if_pos hc, if_pos (Or.inr hc)]
    · rw [if_neg hc, if_neg (by tauto)]

lemma mergeStep_eval_position (ig : List String) (d s : Contact) :
    mergeStep ig d s "position" =
      { s with position :=
          if "position" ∈ ig ∨ truthyO d.position = false ∨ d.position = s.position
          then s.position else d.position } := by
  unfold mergeStep
  by_cases hin : "position" ∈ ig
  · rw [if_pos hin, if_pos (Or.inl hin)]
  · rw [if_neg hin, if_neg (by decide), if_neg (by decide), if_neg (by decide),
      if_neg (by decide), if_pos rfl]
    by_cases hc : truthyO d.position = false ∨ d.position = s.position
    · rw [if_pos hc, if_pos (Or.inr hc)]
    · rw [if_neg hc, if_neg (by tauto)]

lemma mergeStep_eval_phone (ig : List String) (d s : Contact) :
    mergeStep ig d s "phone" =
      { s with phone :=
          if "phone" ∈ ig ∨ d.phone = none ∨ d.phone = s.phone
          then s.phone else d.phone } := by
  unfold mergeStep
  by_cases hin : "phone" ∈ ig
  · rw [if_pos hin, if_pos (Or.inl hin)]
  · rw [if_neg hin, if_neg (by decide), if_neg (by decide), if_neg (by decide),
      if_neg (by decide), if_neg (by decide), if_pos rfl]
    by_cases hc : d.phone = none ∨ d.phone = s.phone
    · rw [if_pos hc, if_pos (Or.inr hc)]
    · rw [if_neg hc, if_neg (by tauto)]

lemma mergeStep_eval_email (ig : List String) (d s : Contact) :
    mergeStep ig d s "email" =
      { s with email :=
          if "email" ∈ ig ∨ d.email = none ∨ d.email = s.email
          then s.email else d.email } := by
  unfold mergeStep
  by_cases hin : "email" ∈ ig
  · rw [if_pos hin, if_pos (Or.inl hin)]
  · rw [if_neg hin, if_neg (by decide), if_neg (by decide), if_neg (by decide),
      if_neg (by decide), if_neg (by decide), if_neg (by decide), if_pos rfl]
    by_cases hc : d.email = none ∨ d.email = s.email
    · rw [if_pos hc, if_pos (Or.inr hc)]
    · rw [if_neg hc, if_neg (by tauto)]

/-- Full evaluation of the merge loop: every field is decided against
the original source values, since each iteration touches only its own
field. -/
lemma merge_source_eval (ig : List String) (d s : Contact) :
    mergeKeys.foldl (mergeStep ig d) s =
      { first_name :=
          if "first_name" ∈ ig ∨ d.first_name = "" ∨ d.first_name = s.first_name
          then s.first_name else d.first_name,
        last_name :=
          if "last_name" ∈ ig ∨ d.last_name = "" ∨ d.last_name = s.last_name
          then s.last_name else d.last_name,
        surname :=
          if "surname" ∈ ig ∨ truthyO d.surname = false ∨ d.surname = s.surname
          then s.surname else d.surname,
        org := if "org" ∈ ig ∨ truthyO d.org = false ∨ d.org = s.org then s.org else d.org,
        position :=
          if "position" ∈ ig ∨ truthyO d.position = false ∨ d.position = s.position
          then s.position else d.position,
        phone := if "phone" ∈ ig ∨ d.phone = none ∨ d.phone = s.phone then s.phone else d.phone,
        email :=
          if "email" ∈ ig ∨ d.email = none ∨ d.email = s.email
          then s.email else d.email } := by
  show mergeStep ig d (mergeStep ig d (mergeStep ig d (mergeStep ig d (mergeStep ig d
    (mergeStep ig d (mergeStep ig d s "first_name") "last_name") "surname") "org")
    "position") "phone") "email" = _
  rw [mergeStep_eval_first, mergeStep_eval_last, mergeStep_eval_surname, mergeStep_eval_org,
    mergeStep_eval_position, mergeStep_eval_phone, mergeStep_eval_email]

/-- C4: merge visits first_name, last_name, surname, org, position,
phone, email in that fixed order and overwrites a source field exactly
when the field is not ignored, the incoming value is non-empty, and it
differs from the source value; dest is never mutated and resolved ends
true.  The Python method returns None, so the updated state is its only
effect. -/
theorem claim_C4_merge_policy (cf : PhonebookConflict) (ig : List String) :
    (cf.merge ig).resolved = true ∧
    (cf.merge ig).dest = cf.dest ∧
    (cf.merge ig).source.first_name =
      (if "first_name" ∉ ig ∧ cf.dest.first_name ≠ "" ∧
          cf.dest.first_name ≠ cf.source.first_name
        then cf.dest.first_name else cf.source.first_name) ∧
    (cf.merge ig).source.last_name =
      (if "last_name" ∉ ig ∧ cf.dest.last_name ≠ "" ∧ cf.dest.last_name ≠ cf.source.last_name
        then cf.dest.last_name else cf.source.last_name) ∧
    (cf.merge ig).source.surname =
      (if "surname" ∉ ig ∧ truthyO cf.dest.surname = true ∧ cf.dest.surname ≠ cf.source.surname
        then cf.dest.surname else cf.source.surname) ∧
    (cf.merge ig).source.org =
      (if "org" ∉ ig ∧ truthyO cf.dest.org = true ∧ cf.dest.org ≠ cf.source.org
        then cf.dest.org else cf.source.org) ∧
    (cf.merge ig).source.position =
      (if "position" ∉ ig ∧ truthyO cf.dest.position = true ∧
          cf.dest.position ≠ cf.source.position
        then cf.dest.position else cf.source.position) ∧
    (cf.merge ig).source.phone =
      (if "phone" ∉ ig ∧ cf.dest.phone ≠ none ∧ cf.dest.phone ≠ cf.source.phone
        then cf.dest.phone else cf.source.phone) ∧
    (cf.merge ig).source.email =
      (if "email" ∉ ig ∧ cf.dest.email ≠ none ∧ cf.dest.email ≠ cf.source.email
        then cf.dest.email else cf.source.email) := by
  have hsrc : (cf.merge ig).source = mergeKeys.foldl (mergeStep ig cf.dest) cf.source := rfl
  refine ⟨rfl, rfl, ?_, ?_, ?_, ?_, ?_, ?_, ?_⟩ <;>
    rw [hsrc, merge_source_eval] <;>
    dsimp only <;>
    split_ifs <;>
    first
    | rfl
    | tauto
    | simp_all

/-! Lemmas about the phone regex. -/

lemma sep_not_digit (c : Char) (h : isSepChar c = true) : c.isDigit = false := by
  simp only [isSepChar, wsChar, Bool.or_eq_true, beq_iff_eq] at h
  have h' : c = ' ' ∨ c = '\t' ∨ c = '\n' ∨ c = '\r' ∨ c = '\x0b' ∨ c = '\x0c' ∨
      c = '(' ∨ c = ')' ∨ c = '-' := by tauto
  rcases h' with rfl | rfl | rfl | rfl | rfl | rfl | rfl | rfl | rfl <;> rfl

lemma digit_not_sep (c : Char) (h : c.isDigit = true) : isSepChar c = false := by
  by_cases hs : isSepChar c
  · rw [sep_not_digit c hs] at h
    exact absurd h (by simp)
  · exact eq_false_of_ne_true hs

lemma filter_digit_of_seps (l : List Char) (h : ∀ x ∈ l, isSepChar x = true) :
    l.filter Char.isDigit = [] := by
  rw [List.filter_eq_nil_iff]
  intro a ha
  simp [sep_not_digit a (h a ha)]

lemma matchTen_digits (n : Nat) :
    ∀ cs g r, matchTen n cs = some (g, r) → (g.filter Char.isDigit).length = n := by
  induction n with
  | zero =>
    intro cs g r h
    simp only [matchTen, Option.some.injEq, Prod.mk.injEq] at h
    rw [← h.1]
    rfl
  | succ n ih =>
    intro cs g r h
    simp only [matchTen] at h
    cases hd : cs.dropWhile isSepChar with
    | nil => rw [hd] at h; exact absurd h (by simp)
    | cons c rest =>
      rw [hd] at h
      dsimp only at h
      by_cases hc : c.isDigit
      · rw [if_pos hc] at h
        cases hm : matchTen n rest with
        | none => rw [hm] at h; exact absurd h (by simp)
        | some pr =>
          obtain ⟨g', r'⟩ := pr
          rw [hm] at h
          simp only [Option.some.injEq, Prod.mk.injEq] at h
          obtain ⟨hg, _⟩ := h
          rw [← hg, List.filter_append]
          rw [filter_digit_of_seps _ (fun x hx => List.mem_takeWhile_imp hx)]
          simp only [List.nil_append, List.filter_cons, hc, if_true, List.length_cons]
          rw [ih rest g' r' hm]
      · rw [if_neg hc] at h
        exact absurd h (by simp)

lemma matchTen_all (n : Nat) :
    ∀ cs g r, matchTen n cs = some (g, r) →
      ∀ x ∈ g, x.isDigit = true ∨ isSepChar x = true := by
  induction n with
  | zero =>
    intro cs g r h
    simp only [matchTen, Option.some.injEq, Prod.mk.injEq] at h
    rw [← h.1]
    intro x hx
    simp at hx
  | succ n ih =>
    intro cs g r h
    simp only [matchTen] at h
    cases hd : cs.dropWhile isSepChar with
    | nil => rw [hd] at h; exact absurd h (by simp)
    | cons c rest =>
      rw [hd] at h
      dsimp only at h
      by_cases hc : c.isDigit
      · rw [if_pos hc] at h
        cases hm : matchTen n rest with
        | none => rw [hm] at h; exact absurd h (by simp)
        | some pr =>
          obtain ⟨g', r'⟩ := pr
          rw [hm] at h
          simp only [Option.some.injEq, Prod.mk.injEq] at h
          obtain ⟨hg, _⟩ := h
          rw [← hg]
          intro x hx
          rcases List.mem_append.1 hx with hx | hx
          · exact Or.inr (List.mem_takeWhile_imp hx)
          · rcases List.mem_cons.1 hx with rfl | hx
            · exact Or.inl hc
            · exact ih rest g' r' hm x hx
      · rw [if_neg hc] at h
        exact absurd h (by simp)

lemma matchCountry_some (cs : List Char) (g : List Char) (e : Option (List Char))
    (h : matchCountry cs = some (g, e)) :
    ∃ c t r, cs = c :: t ∧ (c = '7' ∨ c = '8') ∧ matchTen 10 t = some (g, r) ∧
      e = matchExt r := by
  cases cs with
  | nil => exact absurd h (by simp [matchCountry])
  | cons c t =>
    simp only [matchCountry] at h
    by_cases hc : c = '7' ∨ c = '8'
    · rw [if_pos hc] at h
      cases hm : matchTen 10 t with
      | none => rw [hm] at h; exact absurd h (by simp)
      | some pr =>
        obtain ⟨g', r'⟩ := pr
        rw [hm] at h
        simp only [Option.some.injEq, Prod.mk.injEq] at h
        exact ⟨c, t, r', rfl, hc, by rw [hm, h.1], h.2.symm⟩
    · rw [if_neg hc] at h
      exact absurd h (by simp)

lemma matchPhoneAt_some (cs : List Char) (r : List Char × Option (List Char))
    (h : matchPhoneAt cs = some r) :
    (∃ c rest, cs = '+' :: c :: rest ∧ (c = '7' ∨ c = '8')) ∨
      (∃ c rest, cs = c :: rest ∧ (c = '7' ∨ c = '8')) := by
  obtain ⟨g, e⟩ := r
  cases cs with
  | nil => exact absurd h (by simp [matchPhoneAt])
  | cons c t =>
    simp only [matchPhoneAt] at h
    by_cases hp : c = '+'
    · rw [if_pos hp] at h
      obtain ⟨c', t', r', het, hc', _, _⟩ := matchCountry_some t g e h
      exact Or.inl ⟨c', t', by rw [hp, het], hc'⟩
    · rw [if_neg hp] at h
      obtain ⟨c', t', r', het, hc', _, _⟩ := matchCountry_some (c :: t) g e h
      exact Or.inr ⟨c', t', het, hc'⟩

lemma searchPhone_some_split (cs : List Char) (r : List Char × Option (List Char))
    (h : searchPhone cs = some r) :
    ∃ pre rest, cs = pre ++ rest ∧ matchPhoneAt rest = some r := by
  induction cs with
  | nil => exact absurd h (by simp [searchPhone])
  | cons c t ih =>
    simp only [searchPhone] at h
    cases hm : matchPhoneAt (c :: t) with
    | some r' =>
      rw [hm] at h
      simp only [Option.some.injEq] at h
      exact ⟨[], c :: t, rfl, by rw [hm, h]⟩
    | none =>
      rw [hm] at h
      obtain ⟨pre, rest, heq, hma⟩ := ih h
      exact ⟨c :: pre, rest, by rw [List.cons_append, heq], hma⟩

lemma searchPhone_none (cs : List Char) (h : searchPhone cs = none) :
    ∀ pre rest, cs = pre ++ rest → matchPhoneAt rest = none := by
  induction cs with
  | nil =>
    intro pre rest heq
    obtain ⟨-, h2⟩ := List.append_eq_nil.mp heq.symm
    rw [h2]
    rfl
  | cons c t ih =>
    simp only [searchPhone] at h
    cases hm : matchPhoneAt (c :: t) with
    | some r' => rw [hm] at h; exact absurd h (by simp)
    | none =>
      rw [hm] at h
      intro pre rest heq
      cases pre with
      | nil =>
        simp only [List.nil_append] at heq
        rw [← heq]
        exact hm
      | cons p pre' =>
        simp only [List.cons_append, List.cons.injEq] at heq
        exact ih h pre' rest heq.2

lemma searchPhone_none_of_all (cs : List Char)
    (h : ∀ pre rest, cs = pre ++ rest → matchPhoneAt rest = none) :
    searchPhone cs = none := by
  induction cs with
  | nil => rfl
  | cons c t ih =>
    simp only [searchPhone]
    rw [h [] (c :: t) rfl]
    exact ih (fun pre rest heq => h (c :: pre) rest (by rw [List.cons_append, heq]))

/-- C5 counterexample: parse_ru accepts a number whose leading country
digit is 8, on an input that contains no character 7 at all, so the
claim that a value is returned only when the input carries the leading
country digit 7 fails; the produced value still records country code
7. -/
theorem claim_C5_counterexample :
    Phone.parse_ru "89991112233" = some ⟨7, "9991112233", none⟩ ∧
    "89991112233".toList.contains '7' = false := by
  constructor
  · decide
  · decide

/-- C5 amended: parse_ru returns a value only when some suffix of the
input matches an optional leading plus, a leading country digit 7 or 8,
and separators and digits totalling ten subscriber digits (with the
optional extension); otherwise it returns absent (the iff below), and
every returned value has country code 7 and a ten-digit subscriber
number. -/
theorem claim_C5_amended :
    (∀ (s : String) (p : Phone), Phone.parse_ru s = some p →
      p.int_code = 7 ∧ p.number.length = 10 ∧ (∀ ch ∈ p.number.toList, ch.isDigit = true) ∧
      ∃ pre rest, s.toList = pre ++ rest ∧ (matchPhoneAt rest).isSome = true ∧
        ((∃ c rest', rest = '+' :: c :: rest' ∧ (c = '7' ∨ c = '8')) ∨
          (∃ c rest', rest = c :: rest' ∧ (c = '7' ∨ c = '8')))) ∧
    (∀ s : String, Phone.parse_ru s = none ↔
      ∀ pre rest, s.toList = pre ++ rest → matchPhoneAt rest = none) := by
  constructor
  · intro s p h
    unfold Phone.parse_ru at h
    cases hs : searchPhone s.toList with
    | none => rw [hs] at h; exact absurd h (by simp)
    | some r =>
      obtain ⟨g, e⟩ := r
      rw [hs] at h
      simp only [Option.some.injEq] at h
      obtain ⟨pre, rest, heq, hma⟩ := searchPhone_some_split _ _ hs
      have hshape := matchPhoneAt_some _ _ hma
      have hnum : p.number = String.mk (g.filter Char.isDigit) := by
        rw [← h]
        rfl
      have hcode : p.int_code = 7 := by rw [← h]; rfl
      obtain ⟨c₀, t₀, r₀, hcs⟩ : ∃ c₀ t₀ r₀, matchTen 10 t₀ = some (g, r₀) := by
        cases hrest : rest with
        | nil => rw [hrest] at hma; exact absurd hma (by simp [matchPhoneAt])
        | cons c t =>
          rw [hrest] at hma
          simp only [matchPhoneAt] at hma
          by_cases hp' : c = '+'
          · rw [if_pos hp'] at hma
            obtain ⟨c', t', r', _, _, hmt, _⟩ := matchCountry_some t g e hma
            exact ⟨c', t', r', hmt⟩
          · rw [if_neg hp'] at hma
            obtain ⟨c', t', r', _, _, hmt, _⟩ := matchCountry_some (c :: t) g e hma
            exact ⟨c', t', r', hmt⟩
      refine ⟨hcode, ?_, ?_, pre, rest, heq, by rw [hma]; rfl, hshape⟩
      · rw [hnum]
        show (g.filter Char.isDigit).length = 10
        exact matchTen_digits 10 _ _ _ hcs
      · intro ch hch
        rw [hnum] at hch
        have : ch ∈ g.filter Char.isDigit := hch
        exact (List.mem_filter.1 this).2
  · intro s
    constructor
    · intro h
      unfold Phone.parse_ru at h
      cases hs : searchPhone s.toList with
      | some r => rw [hs] at h; obtain ⟨g, e⟩ := r; exact absurd h (by simp)
      | none => exact searchPhone_none _ hs
    · intro h
      unfold Phone.parse_ru
      rw [searchPhone_none_of_all _ h]

theorem claim_C5_amended_witness :
    Phone.parse_ru "+79991112233" = some ⟨7, "9991112233", none⟩ ∧
    ("9991112233" : String).length = 10 ∧
    matchPhoneAt "abc".toList = none :=
  ⟨by decide,
    (claim_C5_amended.1 "+79991112233" ⟨7, "9991112233", none⟩ (by decide)).2.1,
    (claim_C5_amended.2 "abc").1 (by decide) [] "abc".toList rfl⟩

lemma sep_block_split (sep : List Char) (c : Char) (l : List Char)
    (hsep : ∀ x ∈ sep, isSepChar x = true) (hc : isSepChar c = false) :
    (sep ++ c :: l).dropWhile isSepChar = c :: l ∧
      (sep ++ c :: l).takeWhile isSepChar = sep := by
  induction sep with
  | nil => simp [List.dropWhile_cons, List.takeWhile_cons, hc]
  | cons a t ih =>
    have ha := hsep a (by simp)
    have iht := ih (fun x hx => hsep x (by simp [hx]))
    simp [List.dropWhile_cons, List.takeWhile_cons, ha, iht.1, iht.2]

lemma matchTen_interleave (pairs : List (List Char × Char))
    (h : ∀ pr ∈ pairs, (∀ x ∈ pr.1, isSepChar x = true) ∧ pr.2.isDigit = true) :
    matchTen pairs.length (interleave pairs) = some (interleave pairs, []) := by
  induction pairs with
  | nil => rfl
  | cons pr rest ih =>
    obtain ⟨sep, d⟩ := pr
    have hp := h (sep, d) (by simp)
    have hrest := ih (fun q hq => h q (by simp [hq]))
    have hblock := sep_block_split sep d (interleave rest) hp.1 (digit_not_sep d hp.2)
    rw [show interleave ((sep, d) :: rest) = sep ++ d :: interleave rest from rfl,
      show ((sep, d) :: rest).length = rest.length + 1 from rfl]
    simp only [matchTen, hblock.1, hblock.2, hp.2, if_true, hrest]

lemma interleave_filter (pairs : List (List Char × Char))
    (h : ∀ pr ∈ pairs, (∀ x ∈ pr.1, isSepChar x = true) ∧ pr.2.isDigit = true) :
    (interleave pairs).filter Char.isDigit = pairs.map (fun pr => pr.2) := by
  induction pairs with
  | nil => rfl
  | cons pr rest ih =>
    obtain ⟨sep, d⟩ := pr
    have hp := h (sep, d) (by simp)
    have hrest := ih (fun q hq => h q (by simp [hq]))
    rw [show interleave ((sep, d) :: rest) = sep ++ d :: interleave rest from rfl,
      List.filter_append, filter_digit_of_seps sep hp.1]
    simp only [List.nil_append, List.filter_cons, hp.2, if_true, hrest, List.map_cons]

/-- C7: a ten-digit national number with a leading 7 (with or without
the plus) parses to the same canonical value whatever separator runs
are interleaved between the digits: the result is always country code
7 with exactly the ten digits, no extension. -/
theorem claim_C7_format_insensitive (plus : Bool) (pairs : List (List Char × Char))
    (hlen : pairs.length = 10)
    (h : ∀ pr ∈ pairs, (∀ x ∈ pr.1, isSepChar x = true) ∧ pr.2.isDigit = true) :
    Phone.parse_ru (String.mk ((if plus then ['+'] else []) ++ '7' :: interleave pairs))
      = some ⟨7, String.mk (pairs.map (fun pr => pr.2)), none⟩ := by
  have hmt : matchTen 10 (interleave pairs) = some (interleave pairs, []) := by
    rw [← hlen]
    exact matchTen_interleave pairs h
  have hcountry : matchCountry ('7' :: interleave pairs) = some (interleave pairs, none) := by
    simp only [matchCountry]
    rw [if_pos (Or.inl trivial), hmt]
    rfl
  have hfilter := interleave_filter pairs h
  cases plus
  · show Phone.parse_ru (String.mk ('7' :: interleave pairs)) = _
    have hat : matchPhoneAt ('7' :: interleave pairs) = some (interleave pairs, none) := by
      simp only [matchPhoneAt]
      rw [if_neg (by decide), hcountry]
    have hsearch : searchPhone ('7' :: interleave pairs) = some (interleave pairs, none) := by
      simp only [searchPhone]
      rw [hat]
    unfold Phone.parse_ru
    rw [show String.toList (String.mk ('7' :: interleave pairs)) = '7' :: interleave pairs
      from rfl, hsearch]
    show some (Phone.make 7 (String.mk (interleave pairs)) none) = _
    unfold Phone.make
    rw [show (String.mk (interleave pairs)).toList = interleave pairs from rfl, hfilter]
  · show Phone.parse_ru (String.mk ('+' :: '7' :: interleave pairs)) = _
    have hat : matchPhoneAt ('+' :: '7' :: interleave pairs) = some (interleave pairs, none) := by
      simp only [matchPhoneAt]
      rw [if_pos trivial, hcountry]
    have hsearch : searchPhone ('+' :: '7' :: interleave pairs) = some (interleave pairs, none) := by
      simp only [searchPhone]
      rw [hat]
    unfold Phone.parse_ru
    rw [show String.toList (String.mk ('+' :: '7' :: interleave pairs))
      = '+' :: '7' :: interleave pairs from rfl, hsearch]
    show some (Phone.make 7 (String.mk (interleave pairs)) none) = _
    unfold Phone.make
    rw [show (String.mk (interleave pairs)).toList = interleave pairs from rfl, hfilter]

theorem claim_C7_witness :
    Phone.parse_ru "+7(495) 123-45-67" = some ⟨7, "4951234567", none⟩ ∧
    Phone.parse_ru "74951234567" = some ⟨7, "4951234567", none⟩ := by
  constructor
  · exact claim_C7_format_insensitive true
      [(['('], '4'), ([], '9'), ([], '5'), ([')', ' '], '1'), ([], '2'), ([], '3'),
        (['-'], '4'), ([], '5'), (['-'], '6'), ([], '7')] (by decide) (by decide)
  · exact claim_C7_format_insensitive false
      [([], '4'), ([], '9'), ([], '5'), ([], '1'), ([], '2'), ([], '3'),
        ([], '4'), ([], '5'), ([], '6'), ([], '7')] (by decide) (by decide)

/-- C9: equality of a Phone against a raw string holds exactly when the
string parses to a Phone with the same (int_code, number, ext_code)
triple; a failed parse compares unequal; Phone-to-Phone equality is
reflexive and symmetric. -/
theorem claim_C9_phone_equality :
    (∀ (p : Phone) (s : String), Phone.eqStr p s = true ↔
      ∃ q, Phone.parse_ru s = some q ∧ p.int_code = q.int_code ∧ p.number = q.number ∧
        p.ext_code = q.ext_code) ∧
    (∀ (p : Phone) (s : String), Phone.parse_ru s = none → Phone.eqStr p s = false) ∧
    (∀ p : Phone, Phone.eqPhone p p = true) ∧
    (∀ p q : Phone, Phone.eqPhone p q = Phone.eqPhone q p) := by
  refine ⟨?_, ?_, ?_, ?_⟩
  · intro p s
    unfold Phone.eqStr
    cases hp : Phone.parse_ru s with
    | none =>
      simp only [Bool.false_eq_true, false_iff]
      rintro ⟨q, hq, -⟩
      exact absurd hq (by simp)
    | some q =>
      simp only [Phone.eqPhone, Bool.and_eq_true, beq_iff_eq, Option.some.injEq]
      constructor
      · rintro ⟨⟨h1, h2⟩, h3⟩
        exact ⟨q, rfl, h1, h2, h3⟩
      · rintro ⟨q', hq', h1, h2, h3⟩
        rw [← hq'] at h1 h2 h3
        exact ⟨⟨h1, h2⟩, h3⟩
  · intro p s hp
    unfold Phone.eqStr
    rw [hp]
  · intro p
    simp [Phone.eqPhone]
  · intro p q
    rw [Bool.eq_iff_iff]
    simp only [Phone.eqPhone, Bool.and_eq_true, beq_iff_eq]
    constructor
    · rintro ⟨⟨h1, h2⟩, h3⟩
      exact ⟨⟨h1.symm, h2.symm⟩, h3.symm⟩
    · rintro ⟨⟨h1, h2⟩, h3⟩
      exact ⟨⟨h1.symm, h2.symm⟩, h3.symm⟩

theorem claim_C9_witness :
    Phone.eqStr ⟨7, "9991112233", none⟩ "8 (999) 111-22-33" = true ∧
    Phone.eqStr ⟨7, "9991112233", none⟩ "abc" = false :=
  ⟨(claim_C9_phone_equality.1 ⟨7, "9991112233", none⟩ "8 (999) 111-22-33").2
      ⟨⟨7, "9991112233", none⟩, by decide, rfl, rfl, rfl⟩,
    claim_C9_phone_equality.2.1 ⟨7, "9991112233", none⟩ "abc" (by decide)⟩

/-- C8: for a string failing the e-mail pattern, parse yields an absent
value without raising while the direct constructor fails with the
invalid-format error; for a string passing the pattern, both succeed
and produce the trimmed address. -/
theorem claim_C8_email_parse_vs_init (s : String) :
    (Email.is_valid s = false →
      Email.parse s = Except.ok none ∧
      Email.init s = Except.error EmailError.invalidFormat) ∧
    (Email.is_valid s = true →
      Email.parse s = Except.ok (some ⟨pyStrip s⟩) ∧
      Email.init s = Except.ok ⟨pyStrip s⟩) := by
  have hstrip := is_valid_pyStrip s
  constructor
  · intro hv
    constructor
    · unfold Email.parse
      rw [if_neg (by rw [hv]; simp)]
    · unfold Email.init
      rw [if_neg (by rw [hstrip, hv]; simp)]
  · intro hv
    have hinit : Email.init s = Except.ok ⟨pyStrip s⟩ := by
      unfold Email.init
      rw [if_pos (by rw [hstrip, hv])]
    refine ⟨?_, hinit⟩
    unfold Email.parse
    rw [if_pos (by rw [hv]), hinit]
    rfl

theorem claim_C8_witness :
    Email.parse " a@b.com " = Except.ok (some ⟨pyStrip " a@b.com "⟩) ∧
    pyStrip " a@b.com " = "a@b.com" ∧
    Email.init "bad" = Except.error EmailError.invalidFormat :=
  ⟨((claim_C8_email_parse_vs_init " a@b.com ").2 (by decide)).1,
    by decide,
    ((claim_C8_email_parse_vs_init "bad").1 (by decide)).2⟩

/-- C10: the lookup dictionary is shared between email, phone and name
keys, and an Email key identifies with the raw string equal to its
address.  Hence two records sharing no contact channel and no name can
still collide: the first record's lastName+firstName key equals the
second record's e-mail address, and the second add is reported as a
duplicate of the first. -/
theorem claim_C10_cross_key_collision :
    comContact.email = none ∧ comContact.phone = none ∧ petrEmail.phone = none ∧
    decide (nameKey comContact = nameKey petrEmail) = false ∧
    petrEmail.email = some ⟨nameKey comContact⟩ ∧
    Email.is_valid "a@x.com" = true ∧
    ((Phonebook.empty.add comContact).1.add petrEmail).2 = AddResult.bool false ∧
    ((Phonebook.empty.add comContact).1.add petrEmail).1.conflicts
      = [⟨comContact, petrEmail, false⟩] := by
  refine ⟨rfl, rfl, rfl, by decide, rfl, by decide, by decide, by decide⟩

/-! Lemmas for the name-chaining invariant. -/

lemma dictGet_append_none (m : PDict) (k' k : PKey) (v : Contact)
    (h1 : dictGet m k' = none) (h2 : keyMatch k' k = false) :
    dictGet (m ++ [(k, v)]) k' = none := by
  induction m with
  | nil => simp [dictGet, h2]
  | cons e rest ih =>
    obtain ⟨k₀, v₀⟩ := e
    by_cases hm : keyMatch k' k₀
    · simp [dictGet, hm] at h1
    · simp only [dictGet, hm] at h1
      rw [List.cons_append]
      simp only [dictGet, hm, if_false]
      exact ih (by simpa using h1)

lemma lastWithName_append_self (s : String) (l : List Contact) (c : Contact)
    (hc : nameKey c = s) : lastWithName s (l ++ [c]) = some c := by
  unfold lastWithName
  rw [List.filter_append]
  have h1 : List.filter (fun x => nameKey x == s) [c] = [c] := by simp [hc]
  rw [h1, List.getLast?_concat]

lemma lastWithName_append_other (s : String) (l : List Contact) (c : Contact)
    (hc : nameKey c ≠ s) : lastWithName s (l ++ [c]) = lastWithName s l := by
  unfold lastWithName
  rw [List.filter_append]
  have h1 : List.filter (fun x => nameKey x == s) [c] = [] := by simp [hc]
  rw [h1, List.append_nil]

lemma lastWithName_isSome (s : String) (l : List Contact)
    (h : ∃ d ∈ l, nameKey d = s) : ∃ w, lastWithName s l = some w := by
  obtain ⟨d, hd, hds⟩ := h
  unfold lastWithName
  cases hls : (l.filter (fun c => nameKey c == s)).getLast? with
  | some w => exact ⟨w, rfl⟩
  | none =>
    exfalso
    have hnil := List.getLast?_eq_none_iff.1 hls
    have hmem : d ∈ l.filter (fun c => nameKey c == s) :=
      List.mem_filter.2 ⟨hd, by simp [hds]⟩
    rw [hnil] at hmem
    simp at hmem

lemma accept_hash_shape (pb : Phonebook) (c : Contact) :
    (acceptInto pb c).1.list = pb.list ++ [c] ∧
    (acceptInto pb c).1.hash =
      dictSet (optIns (optIns pb.hash (c.email.map PKey.em) c) (c.phone.map PKey.ph) c)
        (PKey.str (nameKey c)) c ∧
    (acceptInto pb c).1.conflicts = pb.conflicts :=
  ⟨rfl, rfl, rfl⟩

lemma accept_preserves_nameInv (pb : Phonebook) (c : Contact) (h : nameInvariant pb)
    (hE : dictGetOpt pb.hash (c.email.map PKey.em) = none)
    (hP : dictGetOpt pb.hash (c.phone.map PKey.ph) = none) :
    nameInvariant (acceptInto pb c).1 := by
  intro s hex
  rw [(accept_hash_shape pb c).1] at hex ⊢
  rw [(accept_hash_shape pb c).2.1]
  by_cases hs : s = nameKey c
  · subst hs
    rw [dictGet_dictSet_self, lastWithName_append_self _ _ _ rfl]
  · have hex' : ∃ d ∈ pb.list, nameKey d = s := by
      obtain ⟨d, hd, hds⟩ := hex
      rcases List.mem_append.1 hd with hd | hd
      · exact ⟨d, hd, hds⟩
      · rw [List.mem_singleton.1 hd] at hds
        exact absurd hds.symm hs
    obtain ⟨w, hw⟩ := lastWithName_isSome s pb.list hex'
    have hbase : dictGet pb.hash (PKey.str s) = some w := by rw [h s hex', hw]
    have h1 : dictGet (optIns pb.hash (c.email.map PKey.em) c) (PKey.str s) = some w := by
      cases hce : c.email with
      | none => simpa [optIns] using hbase
      | some e =>
        have hget : dictGet pb.hash (PKey.em e) = none := by
          rw [hce] at hE
          simpa [dictGetOpt] using hE
        simp only [Option.map_some', optIns_some]
        rw [dictSet_of_get_none _ _ _ hget]
        exact dictGet_append_of_some _ _ _ _ hbase
    have h2 : dictGet (optIns (optIns pb.hash (c.email.map PKey.em) c)
        (c.phone.map PKey.ph) c) (PKey.str s) = some w := by
      cases hcp : c.phone with
      | none => simpa [optIns] using h1
      | some p =>
        have hgetp : dictGet pb.hash (PKey.ph p) = none := by
          rw [hcp] at hP
          simpa [dictGetOpt] using hP
        have hgetp1 : dictGet (optIns pb.hash (c.email.map PKey.em) c) (PKey.ph p) = none := by
          cases hce : c.email with
          | none => simpa [optIns] using hgetp
          | some e =>
            have hget : dictGet pb.hash (PKey.em e) = none := by
              rw [hce] at hE
              simpa [dictGetOpt] using hE
            simp only [Option.map_some', optIns_some]
            rw [dictSet_of_get_none _ _ _ hget]
            exact dictGet_append_none _ _ _ _ hgetp rfl
        simp only [Option.map_some', optIns_some]
        rw [dictSet_of_get_none _ _ _ hgetp1]
        exact dictGet_append_of_some _ _ _ _ h1
    have hsep : ∀ k₀, keyMatch (PKey.str (nameKey c)) k₀ = true →
        keyMatch (PKey.str s) k₀ = true → False := by
      intro k₀ ha hb
      exact hs (keyMatch_str_forces s (nameKey c) k₀ hb ha)
    rw [dictGet_dictSet_of_sep _ _ _ _ hsep, h2,
      lastWithName_append_other s pb.list c (fun hh => hs hh.symm), hw]

/-- Phonebook.add either accepts (with both channel lookups having
missed) or records one conflict leaving list and hash untouched. -/
lemma add_dichotomy (pb : Phonebook) (c : Contact) :
    (pb.add c = acceptInto pb c ∧
      dictGetOpt pb.hash (c.email.map PKey.em) = none ∧
      dictGetOpt pb.hash (c.phone.map PKey.ph) = none) ∨
    (∃ dup, pb.add c =
      ({ pb with conflicts := pb.conflicts ++ [⟨dup, c, false⟩] }, AddResult.bool false)) := by
  unfold Phonebook.add
  cases hor : pyOr (dictGetOpt pb.hash (c.email.map PKey.em))
      (dictGetOpt pb.hash (c.phone.map PKey.ph)) with
  | some dup => exact Or.inr ⟨dup, rfl⟩
  | none =>
    obtain ⟨hE, hP⟩ := pyOr_eq_none _ _ hor
    cases hn : dictGet pb.hash (PKey.str (nameKey c)) with
    | some dup =>
      by_cases hcond : truthyO dup.surname = false ∨ truthyO c.surname = false ∨
          dup.surname = c.surname
      · refine Or.inr ⟨dup, ?_⟩
        show (if truthyO dup.surname = false ∨ truthyO c.surname = false ∨
            dup.surname = c.surname
          then ({ pb with conflicts := pb.conflicts ++ [⟨dup, c, false⟩] },
            AddResult.bool false)
          else acceptInto pb c) = _
        rw [if_pos hcond]
      · refine Or.inl ⟨?_, hE, hP⟩
        show (if truthyO dup.surname = false ∨ truthyO c.surname = false ∨
            dup.surname = c.surname
          then ({ pb with conflicts := pb.conflicts ++ [⟨dup, c, false⟩] },
            AddResult.bool false)
          else acceptInto pb c) = _
        rw [if_neg hcond]
    | none => exact Or.inl ⟨rfl, hE, hP⟩

lemma add_eq_accept (pb : Phonebook) (c : Contact)
    (h : (pb.add c).2 = AddResult.contactClass) : pb.add c = acceptInto pb c := by
  rcases add_dichotomy pb c with ⟨ha, -, -⟩ | ⟨dup, ha⟩
  · exact ha
  · rw [ha] at h
    exact absurd h (by simp)

lemma add_preserves_nameInv (pb : Phonebook) (c : Contact) (h : nameInvariant pb) :
    nameInvariant (pb.add c).1 := by
  rcases add_dichotomy pb c with ⟨ha, hE, hP⟩ | ⟨dup, ha⟩
  · rw [ha]
    exact accept_preserves_nameInv pb c h hE hP
  · rw [ha]
    intro s hex
    exact h s hex

lemma runAdds_nameInv (cs : List Contact) : nameInvariant (runAdds cs) := by
  suffices hgen : ∀ pb, nameInvariant pb →
      nameInvariant (cs.foldl (fun pb c => (pb.add c).1) pb) by
    apply hgen
    rintro s ⟨d, hd, -⟩
    simp [Phonebook.empty] at hd
  induction cs with
  | nil => exact fun pb h => h
  | cons c t ih =>
    intro pb h
    exact ih _ (add_preserves_nameInv pb c h)

/-- C6: every accepted contact is appended to the canonical list and is
then found in the lookup structure under its email key when present,
its phone key when present, and its name key always (overwriting any
previous holder of that name key); consequently, after any batch of
insertions, looking up a name key held by some accepted contact yields
the most recently accepted contact with that name. -/
theorem claim_C6_acceptance_registration :
    (∀ (pb : Phonebook) (c : Contact), (pb.add c).2 = AddResult.contactClass →
      (pb.add c).1.list = pb.list ++ [c] ∧
      dictGet (pb.add c).1.hash (PKey.str (nameKey c)) = some c ∧
      (∀ e, c.email = some e → dictGet (pb.add c).1.hash (PKey.em e) = some c) ∧
      (∀ p, c.phone = some p → dictGet (pb.add c).1.hash (PKey.ph p) = some c)) ∧
    (∀ (cs : List Contact) (s : String),
      (∃ d ∈ (runAdds cs).list, nameKey d = s) →
      dictGet (runAdds cs).hash (PKey.str s) = lastWithName s (runAdds cs).list) := by
  constructor
  · intro pb c hacc
    rw [add_eq_accept pb c hacc]
    rw [(accept_hash_shape pb c).2.1]
    refine ⟨rfl, dictGet_dictSet_self _ _ _, ?_, ?_⟩
    · intro e hce
      have hst1 : dictGet (optIns pb.hash (c.email.map PKey.em) c) (PKey.em e) = some c := by
        rw [hce]
        simp only [Option.map_some', optIns_some]
        exact dictGet_dictSet_self _ _ _
      have hst2 : dictGet (optIns (optIns pb.hash (c.email.map PKey.em) c)
          (c.phone.map PKey.ph) c) (PKey.em e) = some c := by
        cases hcp : c.phone with
        | none => simpa [optIns] using hst1
        | some p =>
          simp only [Option.map_some', optIns_some]
          rcases dictGet_dictSet_or (optIns pb.hash (c.email.map PKey.em) c) (PKey.ph p)
            (PKey.em e) c with h3 | h3
          · exact h3
          · rw [h3]
            exact hst1
      rcases dictGet_dictSet_or (optIns (optIns pb.hash (c.email.map PKey.em) c)
        (c.phone.map PKey.ph) c) (PKey.str (nameKey c)) (PKey.em e) c with h3 | h3
      · exact h3
      · rw [h3]
        exact hst2
    · intro p hcp
      have hst2 : dictGet (optIns (optIns pb.hash (c.email.map PKey.em) c)
          (c.phone.map PKey.ph) c) (PKey.ph p) = some c := by
        rw [hcp]
        simp only [Option.map_some', optIns_some]
        exact dictGet_dictSet_self _ _ _
      rcases dictGet_dictSet_or (optIns (optIns pb.hash (c.email.map PKey.em) c)
        (c.phone.map PKey.ph) c) (PKey.str (nameKey c)) (PKey.ph p) c with h3 | h3
      · exact h3
      · rw [h3]
        exact hst2
  · intro cs s hex
    exact runAdds_nameInv cs s hex

theorem claim_C6_witness :
    (Phonebook.empty.add ivanEmail).1.list = Phonebook.empty.list ++ [ivanEmail] ∧
    dictGet (runAdds [ivanEmail]).hash (PKey.str "IvanovIvan")
      = lastWithName "IvanovIvan" (runAdds [ivanEmail]).list :=
  ⟨(claim_C6_acceptance_registration.1 Phonebook.empty ivanEmail (by decide)).1,
    claim_C6_acceptance_registration.2 [ivanEmail] "IvanovIvan"
      ⟨ivanEmail, by decide, by decide⟩⟩

end HwRegexp
